import Mathlib

/-!
Shallow embedding of the ElGamal repository (src/ElGamal.py and
src/modules/NumberTheory.py) and verification of the frozen claims.

Conventions of the embedding:
* Python's arbitrary-precision `int` is `Int`; Python `//` is `Int.fdiv`
  and Python `%` is `Int.fmod` (both floor-convention, matching Python).
* Python `while` loops are modelled by structural recursion on an explicit
  `fuel : Nat`; running out of fuel yields `none`, which also models
  genuine divergence of the Python loop (the callers pass fuel that provably
  suffices on terminating inputs, and sufficiency is proved where a claim
  needs it).
* `secrets.randbelow` draws are modelled as explicit `draw` parameters; a
  theorem about "every possible draw" quantifies over the parameter and
  carries the validity bound of the draw as a hypothesis.
* A Python list index assignment `l[i] = v` that can be out of range is
  modelled by `setFalse`, returning `none` exactly when Python would raise
  `IndexError`.
-/

namespace NumberTheory

/-- Bit-length loop of `sieveOfEratosthenesFor...MillerRabin` (and the
generation functions): `while n != 0: n >>= 1; h += 1`.  Diverges on
negative input in Python (modelled by `none`). -/
def bitLenLoop : Nat → Int → Int → Option Int
  | fuel, n, h =>
    if n = 0 then some h
    else
      match fuel with
      | 0 => none
      | fuel' + 1 => bitLenLoop fuel' (n.fdiv 2) (h + 1)

/-- Bit length of a number, as computed by the repeated halving loops of the
source (`h` in the sieve sizing functions). -/
def bitLen (n : Int) : Option Int := bitLenLoop (n.natAbs + 2) n 0

/-- Loop of `euclidean` from NumberTheory.py. -/
def euclideanLoop : Nat → Int → Int → Option Int
  | fuel, r0, r1 =>
    if r1 = 0 then some r0
    else
      match fuel with
      | 0 => none
      | fuel' + 1 => euclideanLoop fuel' r1 (r0 - (r0.fdiv r1) * r1)

/-- `euclidean(number1, number2)` from NumberTheory.py: iterative gcd. -/
def euclidean (number1 number2 : Int) : Option Int :=
  euclideanLoop (number1.natAbs + number2.natAbs + 2) number1 number2

/-- Loop of the Babylonian `sqrt` from NumberTheory.py:
`while y < x: x = (x + y) >> 1; y = number // x`. -/
def sqrtLoop : Nat → Int → Int → Int → Option Int
  | fuel, number, x, y =>
    if y < x then
      match fuel with
      | 0 => none
      | fuel' + 1 =>
        sqrtLoop fuel' number ((x + y).fdiv 2) (number.fdiv ((x + y).fdiv 2))
    else some x

/-- `sqrt(number)` from NumberTheory.py (floor square root for
`number ≥ 1`). -/
def sqrt (number : Int) : Option Int :=
  sqrtLoop (number.natAbs + 2) number number 1

/-- Python `isPrimeList[i] = False`: `none` models the `IndexError` Python
raises when `i` is out of range. -/
def setFalse (l : List Bool) (i : Nat) : Option (List Bool) :=
  if i < l.length then some (l.set i false) else none

/-- Python read `isPrimeList[i]` (always called in bounds by the sieve). -/
def getBool (l : List Bool) (i : Nat) : Option Bool := l.get? i

/-- Inner elimination loop of the sieve:
`while p2 <= maxNumber: isPrimeList[p2] = False; p2 += p`. -/
def sieveInner : Nat → List Bool → Int → Int → Int → Option (List Bool)
  | fuel, l, p, p2, maxNumber =>
    if p2 ≤ maxNumber then
      match fuel with
      | 0 => none
      | fuel' + 1 =>
        match setFalse l p2.toNat with
        | none => none
        | some l' => sieveInner fuel' l' p (p2 + p) maxNumber
    else some l

/-- Outer loop of the sieve: `while p*p <= maxNumber: ...`. -/
def sieveOuter : Nat → List Bool → Int → Int → Option (List Bool)
  | fuel, l, p, maxNumber =>
    if p * p ≤ maxNumber then
      match fuel with
      | 0 => none
      | fuel' + 1 =>
        match getBool l p.toNat with
        | none => none
        | some b =>
          if b then
            match sieveInner (maxNumber.toNat + 2) l p (p * p) maxNumber with
            | none => none
            | some l' => sieveOuter fuel' l' (p + 1) maxNumber
          else sieveOuter fuel' l (p + 1) maxNumber
    else some l

/-- Final collection loop of the sieve:
`for p in range(0, maxNumber + 1): if isPrimeList[p]: primeList.append(p)`. -/
def collectPrimes (l : List Bool) (maxNumber : Int) : List Int :=
  (List.range (maxNumber + 1).toNat).filterMap fun i =>
    match l.get? i with
    | some true => some (i : Int)
    | _ => none

/-- `sieveOfEratosthenes(maxNumber)` from NumberTheory.py.  The list starts
as `[True] * (maxNumber + 1)`; the two initial assignments
`isPrimeList[0] = False` and `isPrimeList[1] = False` raise `IndexError`
(here: `none`) when `maxNumber < 1`. -/
def sieveOfEratosthenes (maxNumber : Int) : Option (List Int) := do
  let l0 := List.replicate (maxNumber + 1).toNat true
  let l1 ← setFalse l0 0
  let l2 ← setFalse l1 1
  let l3 ← sieveOuter (maxNumber.toNat + 2) l2 2 maxNumber
  some (collectPrimes l3 maxNumber)

/-- `sieveOfEratosthenesForAlmostDeterministicMillerRabin(number)`:
sieve all primes up to `(h >> 1) + 1` where `h` is the bit length of
`number`. -/
def sieveOfEratosthenesForAlmostDeterministicMillerRabin
    (number : Int) : Option (List Int) := do
  let h ← bitLen number
  sieveOfEratosthenes (h.fdiv 2 + 1)

/-- Loop of `modularExponentiation`:
`while 0 < e: if e & 1 == 1: p = (p*b)%m; e >>= 1; b = (b*b)%m`. -/
def modExpLoop : Nat → Int → Int → Int → Int → Option Int
  | fuel, m, p, b, e =>
    if 0 < e then
      match fuel with
      | 0 => none
      | fuel' + 1 =>
        modExpLoop fuel' m (if e.fmod 2 = 1 then (p * b).fmod m else p)
          ((b * b).fmod m) (e.fdiv 2)
    else some p

/-- `modularExponentiation(base, exponent, modulo)` from NumberTheory.py. -/
def modularExponentiation (base exponent modulo : Int) : Option Int :=
  modExpLoop (exponent.natAbs + 1) modulo 1 base exponent

/-- The `s`, `d` extraction loop of `millerRabin`:
`while d & 1 == 0: s += 1; d >>= 1` (returns `(s, d)`). -/
def splitOddLoop : Nat → Int → Int → Option (Int × Int)
  | fuel, d, s =>
    if d.fmod 2 = 0 then
      match fuel with
      | 0 => none
      | fuel' + 1 => splitOddLoop fuel' (d.fdiv 2) (s + 1)
    else some (s, d)

/-- Inner squaring loop of `millerRabin`: runs exactly `s - 1` times,
squaring `power` and recording in `nDivides` whether `n - 1` was seen. -/
def mrInnerLoop (n : Int) : Nat → Int → Bool → Bool
  | 0, _, nDivides => nDivides
  | t + 1, power, nDivides =>
    let power' := (power * power).fmod n
    if power' = n - 1 then mrInnerLoop n t power' true
    else mrInnerLoop n t power' nDivides

/-- Per-base loop of `millerRabin`: returns `false` at the first failing
base, `true` if every base passes. -/
def mrBaseLoop (n d s : Int) : List Int → Option Bool
  | [] => some true
  | b :: bRest => do
    let power ← modularExponentiation b d n
    if power = 1 ∨ power = n - 1 then mrBaseLoop n d s bRest
    else if mrInnerLoop n (s - 1).toNat power false then mrBaseLoop n d s bRest
    else some false

/-- `millerRabin(n, bList)` from NumberTheory.py. -/
def millerRabin (n : Int) (bList : List Int) : Option Bool :=
  if n = 2 then some true
  else if n < 2 ∨ n.fmod 2 = 0 then some false
  else do
    let sd ← splitOddLoop ((n - 1).natAbs + 1) (n - 1) 0
    mrBaseLoop n sd.2 sd.1 bList

/-- Trial-division loop of `fastPrimalityTest`: first `d` in the list that
divides `n`, if any. -/
def trialFind (n : Int) : List Int → Option Int
  | [] => none
  | d :: dRest => if n.fmod d = 0 then some d else trialFind n dRest

/-- `fastPrimalityTest(n, dList, bList)` from NumberTheory.py: parity fast
path, then trial division (returning `n == d` at the first divisor found),
then Miller-Rabin. -/
def fastPrimalityTest (n : Int) (dList bList : List Int) : Option Bool :=
  if n = 2 then some true
  else if n < 2 ∨ n.fmod 2 = 0 then some false
  else
    match trialFind n dList with
    | some d => some (decide (n = d))
    | none => millerRabin n bList

/-- Search loop of `nextPrime`.  NOTE: faithful to the source, which
DECREMENTS by 2 (`prime -= 2`), exactly like `previousPrime`. -/
def nextPrimeLoop (pList : List Int) : Nat → Int → Option Int
  | fuel, prime => do
    let b ← fastPrimalityTest prime pList pList
    if b then some prime
    else
      match fuel with
      | 0 => none
      | fuel' + 1 => nextPrimeLoop pList fuel' (prime - 2)

/-- `nextPrime(number)` from NumberTheory.py: adjust an even input to
`number + 1`, build the adaptive sieve once, then loop (stepping by `-2`,
as the source does). -/
def nextPrime (fuel : Nat) (number : Int) : Option Int := do
  let prime := if number.fmod 2 = 0 then number + 1 else number
  let pList ← sieveOfEratosthenesForAlmostDeterministicMillerRabin prime
  nextPrimeLoop pList fuel prime

/-- Exponent-extraction loop of `factorizationTrialDivision`:
`while n % d == 0: n //= d; e += 1`. -/
def factPowLoop (d : Int) : Nat → Int → Int → Option (Int × Int)
  | fuel, n, e =>
    if n.fmod d = 0 then
      match fuel with
      | 0 => none
      | fuel' + 1 => factPowLoop d fuel' (n.fdiv d) (e + 1)
    else some (n, e)

/-- Main divisor loop of `factorizationTrialDivision`:
`while d <= sqrtN: ...; d += 1`, updating the square root each time a
divisor is removed. -/
def factLoop : Nat → Int → Int → Int → List (Int × Int) →
    Option (Int × List (Int × Int))
  | fuel, d, n, sqrtN, acc =>
    if d ≤ sqrtN then
      match fuel with
      | 0 => none
      | fuel' + 1 =>
        if n.fmod d = 0 then
          match factPowLoop d (n.natAbs + 2) n 0 with
          | none => none
          | some (n', e) =>
            match sqrt n' with
            | none => none
            | some s' => factLoop fuel' (d + 1) n' s' (acc ++ [(d, e)])
        else factLoop fuel' (d + 1) n sqrtN acc
    else some (n, acc)

/-- `factorizationTrialDivision(number)` from NumberTheory.py. -/
def factorizationTrialDivision (number : Int) : Option (List (Int × Int)) := do
  let sqrtN ← sqrt number
  let (n, acc) ← factLoop (number.natAbs + 2) 2 number sqrtN []
  some (if n ≠ 1 then acc ++ [(n, 1)] else acc)

/-- Loop of `multiplicativeInverse`: extended euclidean tracking one Bézout
coefficient, reduced mod `modulo` at each step.  Returns the final
`(alphaList[0], remainderList[0])`. -/
def invLoop (modulo : Int) : Nat → Int → Int → Int → Int → Option (Int × Int)
  | fuel, a0, a1, r0, r1 =>
    if r1 = 0 then some (a0, r0)
    else
      match fuel with
      | 0 => none
      | fuel' + 1 =>
        invLoop modulo fuel' a1
          ((a0 - (r0.fdiv r1 * a1).fmod modulo).fmod modulo)
          r1 (r0 - r0.fdiv r1 * r1)

/-- `multiplicativeInverse(number, modulo)` from NumberTheory.py: the final
Bézout coefficient if the final remainder is 1, else the sentinel 0. -/
def multiplicativeInverse (number modulo : Int) : Option Int :=
  (invLoop modulo (modulo.natAbs + 2) 1 0 number modulo).map
    fun ar => if ar.2 = 1 then ar.1 else 0

/-- Search loop of `primitiveRoot`:
`a = 2; while modularExponentiation(a, n, p) == 1: a += 1`. -/
def prFindLoop (n p : Int) : Nat → Int → Option Int
  | fuel, a => do
    let t ← modularExponentiation a n p
    if t = 1 then
      match fuel with
      | 0 => none
      | fuel' + 1 => prFindLoop n p fuel' (a + 1)
    else some a

/-- Per-factor loop of `primitiveRoot` (Gauss's algorithm), accumulating
`g = (g * h) % p`. -/
def prLoop (p : Int) : List (Int × Int) → Int → Option Int
  | [], g => some g
  | (q, e) :: rest, g => do
    let a ← prFindLoop ((p - 1).fdiv q) p (p.natAbs + 2) 2
    let h ← modularExponentiation a ((p - 1).fdiv (q ^ e.toNat)) p
    prLoop p rest ((g * h).fmod p)

/-- `primitiveRoot(factorization, p)` from NumberTheory.py. -/
def primitiveRoot (factorization : List (Int × Int)) (p : Int) : Option Int :=
  prLoop p factorization 1

/-- `randomNumberInRange(lowerBound, upperBound)` from NumberTheory.py:
the source computes `lowerBound + secrets.randbelow(upperBound + 1)`; the
`randbelow` result is modelled by `draw` (valid draws satisfy
`0 ≤ draw < upperBound + 1`). -/
def randomNumberInRange (lowerBound upperBound draw : Int) : Int :=
  lowerBound + draw

/-- `randomBigInteger(bits)` from NumberTheory.py:
`randomBits(bits - 1) + (1 << (bits - 1))`; the `randbits` result is
modelled by `draw` (valid draws satisfy `0 ≤ draw < 2 ^ (bits - 1)`). -/
def randomBigInteger (bits draw : Int) : Int :=
  draw + 2 ^ (bits - 1).toNat

end NumberTheory

namespace ElGamal

/-- The group fields stored on an `ElGamal` instance by the generation
methods (`self.modulo`, `self.order`, `self.orderFactorization`,
`self.generator`, `self.bits`, `self.bytes`). -/
structure GroupData where
  modulo : Int
  order : Int
  orderFactorization : List (Int × Int)
  generator : Int
  bits : Int
  bytes : Int
  deriving Repr, DecidableEq

/-- Byte-length formula of `generateSafeCyclicGroup` (ElGamal.py line 75):
`(self.bits >> 3) + (0 if self.bits >> 3 == 0 else 1)`. -/
def byteLenSafe (bits : Int) : Int :=
  bits.fdiv 8 + (if bits.fdiv 8 = 0 then 0 else 1)

/-- Byte-length formula of `generateCyclicGroup` / `generateSimpleGroup`
(ElGamal.py lines 104, 125): `self.bits >> 3 + (0 if self.bits >> 3 == 0
else 1)`, which by Python precedence is
`self.bits >> (3 + (0 if self.bits >> 3 == 0 else 1))`. -/
def byteLenPlain (bits : Int) : Int :=
  bits.fdiv (2 ^ (3 + (if bits.fdiv 8 = 0 then 0 else 1)))

/-- Bit recomputation loop of the generation methods:
after `p >>= bits`, `while 0 < p: p >>= 1; self.bits += 1`. -/
def bitsRecomputeLoop : Nat → Int → Int → Option Int
  | fuel, p, bits =>
    if 0 < p then
      match fuel with
      | 0 => none
      | fuel' + 1 => bitsRecomputeLoop fuel' (p.fdiv 2) (bits + 1)
    else some bits

/-- Safe-prime search loop of `generateSafeCyclicGroup`:
`while not fastPrimalityTest(p, pList, pList): p += 2q; k += 1`. -/
def safePrimeLoop (pList : List Int) (_2q : Int) : Nat → Int → Int →
    Option (Int × Int)
  | fuel, p, k => do
    let b ← NumberTheory.fastPrimalityTest p pList pList
    if b then some (p, k)
    else
      match fuel with
      | 0 => none
      | fuel' + 1 => safePrimeLoop pList _2q fuel' (p + _2q) (k + 1)

/-- `generateSafeCyclicGroup(bits)` from ElGamal.py, with the
`randomBigInteger` draw made explicit. -/
def generateSafeCyclicGroup (fuel : Nat) (bits draw : Int) :
    Option GroupData := do
  let bigNumber := NumberTheory.randomBigInteger bits draw
  let q ← NumberTheory.nextPrime fuel bigNumber
  let _2q := 2 * q
  let pList ← NumberTheory.sieveOfEratosthenesForAlmostDeterministicMillerRabin
    (_2q + 1)
  let (p, k) ← safePrimeLoop pList _2q fuel (_2q + 1) 1
  let fact2k ← NumberTheory.factorizationTrialDivision (2 * k)
  let orderFactorization := fact2k ++ [(q, 1)]
  let generator ← NumberTheory.primitiveRoot orderFactorization p
  let bitsActual ← bitsRecomputeLoop (p.natAbs + 2) (p.fdiv (2 ^ bits.toNat))
    bits
  some ⟨p, p - 1, orderFactorization, generator, bitsActual,
    byteLenSafe bitsActual⟩

/-- `generateCyclicGroup(bits)` from ElGamal.py, with the
`randomBigInteger` draw and the generator's `randbelow` draw explicit.
`orderFactorization` is left empty and the generator is a random residue
in `randomNumberInRange(0, modulo - 1)`. -/
def generateCyclicGroup (fuel : Nat) (bits bigDraw genDraw : Int) :
    Option GroupData := do
  let bigNumber := NumberTheory.randomBigInteger bits bigDraw
  let p ← NumberTheory.nextPrime fuel bigNumber
  let generator := NumberTheory.randomNumberInRange 0 (p - 1) genDraw
  let bitsActual ← bitsRecomputeLoop (p.natAbs + 2) (p.fdiv (2 ^ bits.toNat))
    bits
  some ⟨p, p - 1, [], generator, bitsActual, byteLenPlain bitsActual⟩

/-- Coprimality search of `generateSimpleGroup`:
`while euclidean(generator, modulo) != 1: generator += 1`. -/
def simpleGenLoop (modulo : Int) : Nat → Int → Option Int
  | fuel, g => do
    let d ← NumberTheory.euclidean g modulo
    if d = 1 then some g
    else
      match fuel with
      | 0 => none
      | fuel' + 1 => simpleGenLoop modulo fuel' (g + 1)

/-- `generateSimpleGroup(bits)` from ElGamal.py.  The source never assigns
`orderFactorization` in this method; the field is modelled as `[]`.
`self.bits` is the requested `bits` (no recomputation in this mode). -/
def generateSimpleGroup (fuel : Nat) (bits modDraw genDraw : Int) :
    Option GroupData := do
  let modulo := NumberTheory.randomBigInteger bits modDraw
  let g0 := NumberTheory.randomNumberInRange 2 (modulo - 2) genDraw
  let generator ← simpleGenLoop modulo fuel g0
  some ⟨modulo, modulo - 1, [], generator, bits, byteLenPlain bits⟩

/-- `generateKeys()` from ElGamal.py: private key
`randomNumberInRange(order//8, order - 1 - order//8)` (draw explicit),
public key `generator ^ privateKey mod modulo`, and the cached inverse of
the public key.  Returns `(privateKey, publicKey, publicKeyInverse)`. -/
def generateKeys (modulo order generator draw : Int) :
    Option (Int × Int × Int) := do
  let minKey := order.fdiv 8
  let privateKey := NumberTheory.randomNumberInRange minKey
    (order - 1 - minKey) draw
  let publicKey ← NumberTheory.modularExponentiation generator privateKey
    modulo
  let publicKeyInverse ← NumberTheory.multiplicativeInverse publicKey modulo
  some (privateKey, publicKey, publicKeyInverse)

/-- `encryptNumber(number, publicKey)` from ElGamal.py, with the ephemeral
`randomNumberInRange(0, modulo - 1)` draw explicit. -/
def encryptNumber (modulo generator number publicKey draw : Int) :
    Option (Int × Int) := do
  let randomNumber := NumberTheory.randomNumberInRange 0 (modulo - 1) draw
  let randomPower ← NumberTheory.modularExponentiation generator randomNumber
    modulo
  let sharedKey ← NumberTheory.modularExponentiation publicKey randomNumber
    modulo
  some ((number * sharedKey).fmod modulo, randomPower)

/-- `decryptNumber(cipher)` from ElGamal.py. -/
def decryptNumber (modulo privateKey : Int) (cipher : Int × Int) :
    Option Int := do
  let sharedKey ← NumberTheory.modularExponentiation cipher.2 privateKey
    modulo
  let sharedKeyInverse ← NumberTheory.multiplicativeInverse sharedKey modulo
  some ((cipher.1 * sharedKeyInverse).fmod modulo)

/-- `dataSlices(data, numBytes)` from ElGamal.py (bytes as `List Nat`):
`len(data) // numBytes + (0 if len(data) % numBytes == 0 else 1)` blocks,
the i-th being `data[i*numBytes : (i+1)*numBytes]`.  Faithful for
`numBytes ≥ 1` (Python raises `ZeroDivisionError` at `numBytes = 0`). -/
def dataSlices (data : List Nat) (numBytes : Nat) : List (List Nat) :=
  (List.range (data.length / numBytes +
      (if data.length % numBytes = 0 then 0 else 1))).map
    fun i => (data.drop (i * numBytes)).take numBytes

/-- Python `int.from_bytes(block, "little")`. -/
def fromBytesLE : List Nat → Nat
  | [] => 0
  | byte :: rest => byte + 256 * fromBytesLE rest

end ElGamal

/-!
Status evaluations and counterexamples that are settled by direct
computation of the embedded code.
-/

set_option maxRecDepth 40000

/-- C3: `nextPrime` is claimed to return a probable prime `q ≥ n`, stepping
upward by 2.  The source's loop body is `prime -= 2` (copied from
`previousPrime`): on input 9 it returns 7, which is smaller than 9,
contradicting the function's own docstring. -/
theorem claim3_nextPrime_steps_downward :
    NumberTheory.nextPrime 100 9 = some 7 ∧ (7 : Int) < 9 := by
  constructor
  · decide
  · decide

/-- C5: `randomNumberInRange(1, 2)` computes `1 + randbelow(2 + 1)`; the
draw 2 is a possible `randbelow(3)` outcome and yields 3, which exceeds
the upper bound 2, contradicting the docstring's
`lowerBound <= number <= upperBound`. -/
theorem claim5_randomNumberInRange_exceeds_upper_bound :
    NumberTheory.randomNumberInRange 1 2 2 = 3 ∧
    (0 ≤ (2 : Int) ∧ (2 : Int) < 2 + 1) ∧ ¬ ((3 : Int) ≤ 2) := by
  refine ⟨rfl, ⟨by decide, by decide⟩, by decide⟩

/-- C8: `sieveOfEratosthenes(0)` raises `IndexError` (the assignment
`isPrimeList[1] = False` on a length-1 list), modelled as `none`; the other
claimed inputs 1, 2, 3 and 100 do return exactly the primes up to the
bound. -/
theorem claim8_sieve_fails_at_zero :
    NumberTheory.sieveOfEratosthenes 0 = none ∧
    NumberTheory.sieveOfEratosthenes 1 = some [] ∧
    NumberTheory.sieveOfEratosthenes 2 = some [2] ∧
    NumberTheory.sieveOfEratosthenes 3 = some [2, 3] ∧
    NumberTheory.sieveOfEratosthenes 100 = some
      [2, 3, 5, 7, 11, 13, 17, 19, 23, 29, 31, 37, 41, 43, 47, 53, 59, 61,
       67, 71, 73, 79, 83, 89, 97] := by
  refine ⟨by decide, by decide, by decide, by decide, by decide⟩

/-- C9 counterexample: at stored bit length 8 the plain/simple byte-length
expression `bits >> 3 + (0 if bits >> 3 == 0 else 1)` evaluates to
`8 >> 4 = 0`, not to `(8 >> 3) + 1 = 2` as the claim states, so it does not
match the parenthesized safe-mode formula. -/
theorem claim9_counterexample :
    ElGamal.byteLenPlain 8 = 0 ∧ (8 : Int).fdiv 8 + 1 = 2 ∧
    ElGamal.byteLenSafe 8 = 2 ∧ (0 : Int) ≠ 2 := by
  refine ⟨by decide, by decide, by decide, by decide⟩

/-- C9 as amended: for every stored bit length with `bits >> 3 != 0`, the
plain/simple formula equals `bits >> 4` (not `(bits >> 3) + 1`). -/
theorem claim9_byteLenPlain_is_shift_four (bits : Int)
    (h : bits.fdiv 8 ≠ 0) : ElGamal.byteLenPlain bits = bits.fdiv 16 := by
  unfold ElGamal.byteLenPlain
  rw [if_neg h]
  norm_num

/-- C9 witness: the amended statement at stored bit length 32. -/
theorem claim9_witness :
    (32 : Int).fdiv 8 ≠ 0 ∧ ElGamal.byteLenPlain 32 = (32 : Int).fdiv 16 :=
  ⟨by decide, claim9_byteLenPlain_is_shift_four 32 (by decide)⟩

/-- C7 counterexample: at `m = 1`, `e = 0` the code returns the initial
accumulator 1, but `b ^ 0 mod 1 = 0`; so the claim fails at `m = 1`
(which its hypothesis `m ≥ 1` allows). -/
theorem claim7_counterexample :
    NumberTheory.modularExponentiation 5 0 1 = some 1 ∧
    ((5 : Int) ^ (0 : Nat)) % 1 = 0 ∧ (1 : Int) ≠ 0 := by
  refine ⟨rfl, by decide, by decide⟩

/-- C1 counterexample: a full run of `generateCyclicGroup(8)` with
`randomBigInteger` draw 3 (so `bigNumber = 131`, a prime accepted at once)
and generator draw 0 — a legal `randbelow(131)` outcome — yields the group
`(modulo 131, generator 0)`.  `generateKeys` with draw 1 gives private key
17 and public key `0^17 mod 131 = 0`; encrypting `m = 1` with ephemeral
draw 1 gives the cipher `(0, 0)`, which decrypts to 0, not 1.  All draws
shown are within their `randbelow` ranges. -/
theorem claim1_counterexample :
    ElGamal.generateCyclicGroup 100 8 3 0 =
      some ⟨131, 130, [], 0, 8, 0⟩ ∧
    ElGamal.generateKeys 131 130 0 1 = some (17, 0, 0) ∧
    ElGamal.encryptNumber 131 0 1 0 1 = some (0, 0) ∧
    ElGamal.decryptNumber 131 17 (0, 0) = some 0 ∧ (0 : Int) ≠ 1 ∧
    (0 ≤ (3 : Int) ∧ (3 : Int) < 2 ^ 7) ∧
    (0 ≤ (0 : Int) ∧ (0 : Int) < 131) ∧
    (0 ≤ (1 : Int) ∧ (1 : Int) ≤ 130 - 1 - 130 / 8 - 130 / 8 + 1) ∧
    (0 ≤ (1 : Int) ∧ (1 : Int) < 131) := by
  refine ⟨by decide, by decide, by decide, by decide, by decide,
    ⟨by decide, by decide⟩, ⟨by decide, by decide⟩, ⟨by decide, by decide⟩,
    ⟨by decide, by decide⟩⟩

/-- C6 counterexample: a full run of `generateSafeCyclicGroup(7)` with
`randomBigInteger` draw 19 (so `bigNumber = 83`, a Sophie Germain prime
accepted at once; `p = 167`) recomputes the stored bit length to 8 and the
byte length to 2, so `encryptJSON` slices plaintext into 1-byte blocks.
The block `[255]` of the plaintext byte string `[255]` has little-endian
value 255, which is NOT less than the modulus 167, so the reduction
`(blockNumber * sharedKey) % modulo` is not injective on block values. -/
theorem claim6_counterexample :
    ElGamal.generateSafeCyclicGroup 100 7 19 =
      some ⟨167, 166, [(2, 1), (83, 1)], 163, 8, 2⟩ ∧
    ElGamal.dataSlices [255] ((2 - 1 : Int)).toNat = [[255]] ∧
    ¬ ((ElGamal.fromBytesLE [255] : Int) < 167) ∧
    (0 ≤ (19 : Int) ∧ (19 : Int) < 2 ^ 6) := by
  refine ⟨by decide, by decide, by decide, by decide, by decide⟩

namespace NumberTheory

theorem emod_self_modEq (a m : Int) : Int.ModEq m (a % m) a := by
  unfold Int.ModEq
  exact Int.emod_emod_of_dvd a dvd_rfl

theorem modExpLoop_nat (m : Int) (hm : 2 ≤ m) :
    ∀ (fuel E : Nat), E < fuel → ∀ (p b : Int), 0 ≤ p → p < m →
      modExpLoop fuel m p b (E : Int) = some ((p * b ^ E) % m) := by
  intro fuel
  induction fuel with
  | zero => intro E hE; omega
  | succ f ih =>
    intro E hE p b hp0 hpm
    by_cases hE0 : E = 0
    · subst hE0
      rw [modExpLoop]
      have : ¬ (0 : Int) < ((0 : Nat) : Int) := by norm_num
      rw [if_neg this]
      have : (p * b ^ (0 : Nat)) % m = p := by
        rw [pow_zero, mul_one, Int.emod_eq_of_lt hp0 hpm]
      rw [this]
    · have h0 : (0 : Int) < (E : Int) := by exact_mod_cast Nat.pos_of_ne_zero hE0
      rw [modExpLoop, if_pos h0]
      have hfm : ((E : Int)).fmod 2 = ((E % 2 : Nat) : Int) := by
        rw [Int.fmod_eq_emod _ (by norm_num)]
        omega
      have hfd : ((E : Int)).fdiv 2 = ((E / 2 : Nat) : Int) := by
        rw [Int.fdiv_eq_ediv _ (by norm_num)]
        omega
      have hlt : E / 2 < f := by
        have : E / 2 < E := Nat.div_lt_self (by omega) one_lt_two
        omega
      have hstep : ∀ p' : Int, 0 ≤ p' → p' < m →
          modExpLoop f m p' ((b * b) % m) ((E / 2 : Nat) : Int) =
            some ((p' * ((b * b) % m) ^ (E / 2)) % m) :=
        fun p' h1 h2 => ih (E / 2) hlt p' ((b * b) % m) h1 h2
      rw [hfm, hfd]
      have hm0 : (0 : Int) ≤ m := by omega
      rw [Int.fmod_eq_emod (p * b) hm0, Int.fmod_eq_emod (b * b) hm0]
      by_cases hpar : E % 2 = 1
      · rw [hpar]
        rw [show ((1 : Nat) : Int) = 1 from by norm_num, if_pos rfl]
        rw [hstep ((p * b) % m) (Int.emod_nonneg _ (by omega))
          (Int.emod_lt_of_pos _ (by omega))]
        congr 1
        have hcong : Int.ModEq m (((p * b) % m) * (((b * b) % m) ^ (E / 2)))
            (p * b ^ E) := by
          calc ((p * b) % m) * (((b * b) % m) ^ (E / 2))
              ≡ (p * b) * ((b * b) ^ (E / 2)) [ZMOD m] :=
                Int.ModEq.mul (emod_self_modEq _ _) ((emod_self_modEq _ _).pow _)
            _ = p * b ^ E := by
                rw [← pow_two, ← pow_mul]
                rw [mul_assoc, ← pow_succ']
                congr 2
                omega
        exact hcong
      · have hpar0 : E % 2 = 0 := by omega
        rw [hpar0]
        have hne : ¬ ((0 : Nat) : Int) = 1 := by norm_num
        rw [if_neg hne]
        rw [hstep p hp0 hpm]
        congr 1
        have hcong : Int.ModEq m (p * (((b * b) % m) ^ (E / 2)))
            (p * b ^ E) := by
          calc p * (((b * b) % m) ^ (E / 2))
              ≡ p * ((b * b) ^ (E / 2)) [ZMOD m] :=
                Int.ModEq.mul Int.ModEq.rfl ((emod_self_modEq _ _).pow _)
            _ = p * b ^ E := by
                rw [← pow_two, ← pow_mul]
                congr 2
                omega
        exact hcong

end NumberTheory

namespace NumberTheory

/-- `modularExponentiation` on a natural exponent and modulus at least 2
computes exactly `b ^ E mod m`. -/
theorem modularExponentiation_eq_pow (b : Int) (E : Nat) (m : Int)
    (hm : 2 ≤ m) :
    modularExponentiation b (E : Int) m = some ((b ^ E) % m) := by
  unfold modularExponentiation
  rw [Int.natAbs_ofNat]
  rw [modExpLoop_nat m hm (E + 1) E (Nat.lt_succ_self E) 1 b (by norm_num)
    (by omega), one_mul]

/-- Int-exponent form of `modularExponentiation_eq_pow`. -/
theorem modularExponentiation_eq_pow' (b e m : Int) (he : 0 ≤ e)
    (hm : 2 ≤ m) :
    modularExponentiation b e m = some ((b ^ e.toNat) % m) := by
  obtain ⟨E, rfl⟩ := Int.eq_ofNat_of_zero_le he
  rw [Int.toNat_ofNat]
  exact modularExponentiation_eq_pow b E m hm

/-- At modulus 1 with a positive exponent the loop returns 0. -/
theorem modExpLoop_one : ∀ (fuel E : Nat), E < fuel → 1 ≤ E → ∀ (p b : Int),
    modExpLoop fuel 1 p b (E : Int) = some 0 := by
  intro fuel
  induction fuel with
  | zero => intro E h; omega
  | succ f ih =>
    intro E hE hE1 p b
    have h0 : (0 : Int) < (E : Int) := by exact_mod_cast hE1
    rw [modExpLoop, if_pos h0]
    have hfm : ((E : Int)).fmod 2 = ((E % 2 : Nat) : Int) := by
      rw [Int.fmod_eq_emod _ (by norm_num)]
      omega
    have hfd : ((E : Int)).fdiv 2 = ((E / 2 : Nat) : Int) := by
      rw [Int.fdiv_eq_ediv _ (by norm_num)]
      omega
    rw [hfm, hfd]
    by_cases hE2 : E = 1
    · subst hE2
      norm_num
      rw [modExpLoop.eq_def]
      norm_num
    · have h2 : 1 ≤ E / 2 := by omega
      have hlt : E / 2 < f := by
        have : E / 2 < E := Nat.div_lt_self (by omega) one_lt_two
        omega
      exact ih (E / 2) hlt h2 _ _

end NumberTheory

/-- C7 as amended: for `b ≥ 0`, `e ≥ 0`, `m ≥ 1`, the function equals
`b ^ e mod m` except in the single excluded case `m = 1 ∧ e = 0`, where the
code returns 1 while `b ^ 0 mod 1 = 0`. -/
theorem claim7_modularExponentiation_correct (b e m : Int) (hb : 0 ≤ b)
    (he : 0 ≤ e) (hm : 1 ≤ m) (hme : 2 ≤ m ∨ 1 ≤ e) :
    NumberTheory.modularExponentiation b e m = some ((b ^ e.toNat) % m) := by
  by_cases h : 2 ≤ m
  · exact NumberTheory.modularExponentiation_eq_pow' b e m he h
  · have hm1 : m = 1 := by omega
    subst hm1
    have he1 : 1 ≤ e := by
      rcases hme with h2 | h1
      · omega
      · exact h1
    obtain ⟨E, rfl⟩ := Int.eq_ofNat_of_zero_le he
    have hE1 : 1 ≤ E := by exact_mod_cast he1
    unfold NumberTheory.modularExponentiation
    rw [Int.natAbs_ofNat]
    rw [NumberTheory.modExpLoop_one (E + 1) E (Nat.lt_succ_self E) hE1 1 b]
    rw [Int.emod_one]

/-- C7 witness: the amended statement instantiated at `3 ^ 5 mod 7`. -/
theorem claim7_witness :
    (0 ≤ (3 : Int) ∧ 0 ≤ (5 : Int) ∧ 1 ≤ (7 : Int) ∧
      (2 ≤ (7 : Int) ∨ 1 ≤ (5 : Int))) ∧
    NumberTheory.modularExponentiation 3 5 7 =
      some (((3 : Int) ^ ((5 : Int)).toNat) % 7) :=
  ⟨⟨by decide, by decide, by decide, Or.inl (by decide)⟩,
    claim7_modularExponentiation_correct 3 5 7 (by decide) (by decide)
      (by decide) (Or.inl (by decide))⟩

namespace NumberTheory

/-- gcd is invariant under subtracting a multiple of the other argument. -/
theorem gcd_sub_mul (r0 r1 q : Int) :
    Int.gcd r1 (r0 - q * r1) = Int.gcd r0 r1 := by
  apply Nat.dvd_antisymm
  · rw [← Int.natCast_dvd_natCast]
    apply Int.dvd_gcd
    · have h1 : (Int.gcd r1 (r0 - q * r1) : Int) ∣ r1 := Int.gcd_dvd_left
      have h2 : (Int.gcd r1 (r0 - q * r1) : Int) ∣ r0 - q * r1 :=
        Int.gcd_dvd_right
      have h3 := dvd_add h2 (h1.mul_left q)
      simpa using h3
    · exact Int.gcd_dvd_left
  · rw [← Int.natCast_dvd_natCast]
    apply Int.dvd_gcd
    · exact Int.gcd_dvd_right
    · exact dvd_sub Int.gcd_dvd_left (Int.gcd_dvd_right.mul_left q)

/-- Reducing the first argument modulo the second leaves the gcd fixed. -/
theorem gcd_emod_left (x n : Int) : Int.gcd (x % n) n = Int.gcd x n := by
  have h : x % n = x - (x / n) * n := by
    rw [Int.emod_def]
    ring
  rw [Int.gcd_comm, h, gcd_sub_mul]

/-- Invariant of the `multiplicativeInverse` loop on states with nonnegative
remainders and reduced Bézout coefficients. -/
theorem invLoop_spec (m a : Int) (hm : 2 ≤ m) :
    ∀ (fuel : Nat) (a0 a1 r0 r1 : Int), r1.natAbs < fuel →
      0 ≤ r0 → 0 ≤ r1 →
      0 ≤ a0 → a0 < m → 0 ≤ a1 → a1 < m →
      Int.ModEq m (a0 * a) r0 → Int.ModEq m (a1 * a) r1 →
      ∃ af rf, invLoop m fuel a0 a1 r0 r1 = some (af, rf) ∧
        0 ≤ af ∧ af < m ∧ 0 ≤ rf ∧ rf.natAbs = Int.gcd r0 r1 ∧
        Int.ModEq m (af * a) rf := by
  intro fuel
  induction fuel with
  | zero => intro a0 a1 r0 r1 h; omega
  | succ f ih =>
    intro a0 a1 r0 r1 hfu hr0 hr1 ha00 ha0m ha10 ha1m hme0 hme1
    by_cases h1 : r1 = 0
    · subst h1
      refine ⟨a0, r0, ?_, ha00, ha0m, hr0, ?_, hme0⟩
      · rw [invLoop, if_pos rfl]
      · rw [Int.gcd_zero_right]
    · rw [invLoop, if_neg h1]
      have hr1pos : 0 < r1 := lt_of_le_of_ne hr1 (Ne.symm h1)
      have hrem : r0 - r0.fdiv r1 * r1 = r0 % r1 := by
        rw [mul_comm, ← Int.fmod_def, Int.fmod_eq_emod _ hr1]
      have hrem0 : 0 ≤ r0 % r1 := Int.emod_nonneg _ h1
      have hremlt : r0 % r1 < r1 := Int.emod_lt_of_pos _ hr1pos
      have hm0 : (0 : Int) ≤ m := by omega
      have hmne : m ≠ 0 := by omega
      have halpha : (a0 - (r0.fdiv r1 * a1).fmod m).fmod m =
          (a0 - (r0.fdiv r1 * a1) % m) % m := by
        rw [Int.fmod_eq_emod _ hm0, Int.fmod_eq_emod _ hm0]
      have ha1'0 : 0 ≤ (a0 - (r0.fdiv r1 * a1) % m) % m :=
        Int.emod_nonneg _ hmne
      have ha1'm : (a0 - (r0.fdiv r1 * a1) % m) % m < m :=
        Int.emod_lt_of_pos _ (by omega)
      have hme1' : Int.ModEq m (((a0 - (r0.fdiv r1 * a1) % m) % m) * a)
          (r0 - r0.fdiv r1 * r1) := by
        have step1 : Int.ModEq m ((a0 - (r0.fdiv r1 * a1) % m) % m)
            (a0 - r0.fdiv r1 * a1) := by
          calc (a0 - (r0.fdiv r1 * a1) % m) % m
              ≡ a0 - (r0.fdiv r1 * a1) % m [ZMOD m] := emod_self_modEq _ _
            _ ≡ a0 - r0.fdiv r1 * a1 [ZMOD m] :=
                Int.ModEq.sub Int.ModEq.rfl (emod_self_modEq _ _)
        calc ((a0 - (r0.fdiv r1 * a1) % m) % m) * a
            ≡ (a0 - r0.fdiv r1 * a1) * a [ZMOD m] := step1.mul Int.ModEq.rfl
          _ = a0 * a - r0.fdiv r1 * (a1 * a) := by ring
          _ ≡ r0 - r0.fdiv r1 * r1 [ZMOD m] :=
              hme0.sub (Int.ModEq.mul_left _ hme1)
      have hfu' : (r0 - r0.fdiv r1 * r1).natAbs < f := by
        rw [hrem]
        omega
      obtain ⟨af, rf, heq, haf0, hafm, hrf0, hgcd, hmef⟩ :=
        ih a1 ((a0 - (r0.fdiv r1 * a1).fmod m).fmod m) r1
          (r0 - r0.fdiv r1 * r1) hfu'
          hr1 (by rw [hrem]; exact hrem0)
          ha10 ha1m (by rw [halpha]; exact ha1'0) (by rw [halpha]; exact ha1'm)
          hme1 (by rw [halpha]; exact hme1')
      refine ⟨af, rf, heq, haf0, hafm, hrf0, ?_, hmef⟩
      rw [hgcd, gcd_sub_mul]

end NumberTheory

namespace NumberTheory

/-- Full specification of `multiplicativeInverse` for modulus at least 2:
it always returns a value `v` with `0 ≤ v < m`; when `gcd(a, m) = 1` the
value is a genuine inverse and nonzero, otherwise it is the sentinel 0. -/
theorem multiplicativeInverse_spec (a m : Int) (hm : 2 ≤ m) :
    ∃ v, multiplicativeInverse a m = some v ∧ 0 ≤ v ∧ v < m ∧
      (Int.gcd a m = 1 → Int.ModEq m (a * v) 1 ∧ v ≠ 0) ∧
      (Int.gcd a m ≠ 1 → v = 0) := by
  unfold multiplicativeInverse
  have hm0 : (0 : Int) ≤ m := by omega
  have hmne : m ≠ 0 := by omega
  have hstep : invLoop m (m.natAbs + 2) 1 0 a m =
      invLoop m (m.natAbs + 1) 0 ((1 - (a.fdiv m * 0).fmod m).fmod m) m
        (a - a.fdiv m * m) := by
    rw [show m.natAbs + 2 = (m.natAbs + 1) + 1 from rfl]
    rw [invLoop, if_neg hmne]
  have halpha : (1 - (a.fdiv m * 0).fmod m).fmod m = 1 := by
    rw [mul_zero]
    rw [show (0 : Int).fmod m = 0 from by
      rw [Int.fmod_eq_emod _ hm0, Int.zero_emod]]
    rw [sub_zero, Int.fmod_eq_emod _ hm0]
    exact Int.emod_eq_of_lt (by norm_num) (by omega)
  have hrem : a - a.fdiv m * m = a % m := by
    rw [mul_comm, ← Int.fmod_def, Int.fmod_eq_emod _ hm0]
  rw [hstep, halpha, hrem]
  have hrem0 : 0 ≤ a % m := Int.emod_nonneg _ hmne
  have hremlt : a % m < m := Int.emod_lt_of_pos _ (by omega)
  obtain ⟨af, rf, heq, haf0, hafm, hrf0, hgcd, hmef⟩ :=
    invLoop_spec m a hm (m.natAbs + 1) 0 1 m (a % m)
      (by omega) hm0 hrem0 (by norm_num) (by omega) (by norm_num) (by omega)
      (by
        show (0 * a) % m = m % m
        rw [zero_mul, Int.emod_self, Int.zero_emod])
      (by
        show (1 * a) % m = (a % m) % m
        rw [one_mul, Int.emod_emod_of_dvd _ dvd_rfl])
  have hgcd' : rf.natAbs = Int.gcd a m := by
    rw [hgcd, Int.gcd_comm, gcd_emod_left]
  rw [heq]
  by_cases hg : Int.gcd a m = 1
  · have hrf1 : rf = 1 := by omega
    refine ⟨af, ?_, haf0, hafm, ?_, ?_⟩
    · simp [hrf1]
    · intro _
      constructor
      · rw [mul_comm]
        rw [hrf1] at hmef
        exact hmef
      · intro h0
        rw [h0, zero_mul] at hmef
        rw [hrf1] at hmef
        have : (0 : Int) % m = 1 % m := hmef
        rw [Int.zero_emod, Int.emod_eq_of_lt (by norm_num) (by omega)] at this
        exact absurd this (by norm_num)
    · intro hne
      exact absurd hg hne
  · have hrfne : ¬ rf = 1 := by
      intro h1
      rw [h1] at hgcd'
      exact hg (by simpa using hgcd'.symm)
    refine ⟨0, ?_, le_refl 0, by omega, ?_, fun _ => rfl⟩
    · simp [hrfne]
    · intro hcontra
      exact absurd hcontra hg

end NumberTheory

/-- C4: for every integer `a` and modulus `m ≥ 2`, the inverse returned by
`multiplicativeInverse` satisfies `(a * inverse) mod m = 1` whenever
`gcd(a, m) = 1`, and the sentinel 0 is returned exactly when
`gcd(a, m) ≠ 1`. -/
theorem claim4_multiplicativeInverse (a m : Int) (hm : 2 ≤ m) :
    ∃ v, NumberTheory.multiplicativeInverse a m = some v ∧
      (Int.gcd a m = 1 → (a * v).fmod m = 1) ∧
      (v = 0 ↔ Int.gcd a m ≠ 1) := by
  obtain ⟨v, hv, hv0, hvm, hco, hnc⟩ :=
    NumberTheory.multiplicativeInverse_spec a m hm
  refine ⟨v, hv, ?_, ?_, ?_⟩
  · intro hg
    rw [Int.fmod_eq_emod _ (by omega)]
    calc (a * v) % m = 1 % m := (hco hg).1
      _ = 1 := Int.emod_eq_of_lt (by norm_num) (by omega)
  · intro h0 hg
    exact (hco hg).2 h0
  · intro hg
    exact hnc hg

/-- C4 witness: the inverse of 3 modulo 7. -/
theorem claim4_witness :
    2 ≤ (7 : Int) ∧
    ∃ v, NumberTheory.multiplicativeInverse 3 7 = some v ∧
      (Int.gcd 3 7 = 1 → ((3 : Int) * v).fmod 7 = 1) ∧
      (v = 0 ↔ Int.gcd 3 7 ≠ 1) :=
  ⟨by decide, claim4_multiplicativeInverse 3 7 (by decide)⟩

/-- Core round-trip lemma (the amended C1): over any modulus `n ≥ 2` whose
generator is coprime to it, `generateKeys` followed by `encryptNumber` and
`decryptNumber` returns the plaintext for every `m` in `[0, n)` and every
ephemeral draw. -/
theorem claim1_roundTrip_of_coprime (n g xdraw rdraw m : Int) (hn : 2 ≤ n)
    (hgco : Int.gcd g n = 1) (hx : 0 ≤ xdraw) (hrd : 0 ≤ rdraw)
    (hrdn : rdraw < n) (hm0 : 0 ≤ m) (hmn : m < n) :
    (do
      let keys ← ElGamal.generateKeys n (n - 1) g xdraw
      let cipher ← ElGamal.encryptNumber n g m keys.2.1 rdraw
      ElGamal.decryptNumber n keys.1 cipher) = some m := by
  have hn0 : (0 : Int) ≤ n := by omega
  have hnne : n ≠ 0 := by omega
  have hx0 : 0 ≤ (n - 1).fdiv 8 + xdraw := by
    have : 0 ≤ (n - 1).fdiv 8 := Int.fdiv_nonneg (by omega) (by norm_num)
    omega
  set x : Int := (n - 1).fdiv 8 + xdraw with hxdef
  set X : Nat := x.toNat with hXdef
  set R : Nat := rdraw.toNat with hRdef
  have hco1 : IsCoprime g (n : Int) := Int.gcd_eq_one_iff_coprime.mp hgco
  have hcopow : ∀ k : Nat, Int.gcd ((g ^ k) % n) n = 1 := by
    intro k
    rw [NumberTheory.gcd_emod_left]
    exact Int.gcd_eq_one_iff_coprime.mpr (hco1.pow_left)
  have hpub : NumberTheory.modularExponentiation g x n = some ((g ^ X) % n) :=
    NumberTheory.modularExponentiation_eq_pow' g x n hx0 hn
  obtain ⟨pv, hpv, _, _, _, _⟩ :=
    NumberTheory.multiplicativeInverse_spec ((g ^ X) % n) n hn
  have hc1 : NumberTheory.modularExponentiation g (0 + rdraw) n =
      some ((g ^ R) % n) := by
    rw [zero_add]
    exact NumberTheory.modularExponentiation_eq_pow' g rdraw n hrd hn
  have hskey : ((g ^ X % n) ^ R) % n = (g ^ (X * R)) % n := by
    calc ((g ^ X % n) ^ R) % n
        = ((g ^ X) ^ R) % n := (NumberTheory.emod_self_modEq _ _).pow _
      _ = (g ^ (X * R)) % n := by rw [← pow_mul]
  have hskey2 : ((g ^ R % n) ^ X) % n = (g ^ (X * R)) % n := by
    calc ((g ^ R % n) ^ X) % n
        = ((g ^ R) ^ X) % n := (NumberTheory.emod_self_modEq _ _).pow _
      _ = (g ^ (X * R)) % n := by rw [← pow_mul, Nat.mul_comm]
  have hs : NumberTheory.modularExponentiation (g ^ X % n) (0 + rdraw) n =
      some ((g ^ (X * R)) % n) := by
    rw [zero_add, NumberTheory.modularExponentiation_eq_pow' _ rdraw n hrd hn,
      hskey]
  have hdec : NumberTheory.modularExponentiation (g ^ R % n) x n =
      some ((g ^ (X * R)) % n) := by
    rw [NumberTheory.modularExponentiation_eq_pow' _ x n hx0 hn, hskey2]
  obtain ⟨v, hv, hv0, hvm, hvind, _⟩ :=
    NumberTheory.multiplicativeInverse_spec ((g ^ (X * R)) % n) n hn
  obtain ⟨hmodeq, hvne⟩ := hvind (hcopow (X * R))
  simp only [ElGamal.generateKeys, ElGamal.encryptNumber,
    ElGamal.decryptNumber, NumberTheory.randomNumberInRange, ← hxdef,
    hpub, hpv, hc1, hs, hdec, hv, Option.bind_eq_bind, Option.some_bind]
  have hfinal : (((m * (g ^ (X * R) % n)).fmod n) * v).fmod n = m := by
    rw [Int.fmod_eq_emod _ hn0, Int.fmod_eq_emod _ hn0]
    have hcong : Int.ModEq n (((m * (g ^ (X * R) % n)) % n) * v) m := by
      calc ((m * (g ^ (X * R) % n)) % n) * v
          ≡ (m * (g ^ (X * R) % n)) * v [ZMOD n] :=
            (NumberTheory.emod_self_modEq _ _).mul Int.ModEq.rfl
        _ = m * ((g ^ (X * R) % n) * v) := by ring
        _ ≡ m * 1 [ZMOD n] := Int.ModEq.mul_left m hmodeq
        _ = m := mul_one m
    calc ((m * (g ^ (X * R) % n)) % n * v) % n = m % n := hcong
      _ = m := Int.emod_eq_of_lt hm0 hmn
  rw [hfinal]

/-- C1 witness: round trip of `m = 5` modulo 131 with generator 2. -/
theorem claim1_witness :
    (2 ≤ (131 : Int) ∧ Int.gcd 2 131 = 1 ∧ 0 ≤ (1 : Int) ∧ 0 ≤ (1 : Int) ∧
      (1 : Int) < 131 ∧ 0 ≤ (5 : Int) ∧ (5 : Int) < 131) ∧
    (do
      let keys ← ElGamal.generateKeys 131 (131 - 1) 2 1
      let cipher ← ElGamal.encryptNumber 131 2 5 keys.2.1 1
      ElGamal.decryptNumber 131 keys.1 cipher) = some 5 :=
  ⟨⟨by decide, by decide, by decide, by decide, by decide, by decide,
    by decide⟩,
    claim1_roundTrip_of_coprime 131 2 1 1 5 (by decide) (by decide)
      (by decide) (by decide) (by decide) (by decide) (by decide)⟩

namespace ElGamal

/-- A little-endian byte block of bytes below 256 is below `256 ^ length`. -/
theorem fromBytesLE_lt (bl : List Nat) (h : ∀ x ∈ bl, x < 256) :
    fromBytesLE bl < 256 ^ bl.length := by
  induction bl with
  | nil => simp [fromBytesLE]
  | cons byte rest ih =>
    have h1 : byte < 256 := h byte (List.mem_cons_self byte rest)
    have h2 : fromBytesLE rest < 256 ^ rest.length :=
      ih fun x hx => h x (List.mem_cons_of_mem byte hx)
    simp only [fromBytesLE, List.length_cons, pow_succ]
    calc byte + 256 * fromBytesLE rest
        ≤ 255 + 256 * (256 ^ rest.length - 1) := by
          have : fromBytesLE rest ≤ 256 ^ rest.length - 1 := by omega
          have h3 : 256 * fromBytesLE rest ≤ 256 * (256 ^ rest.length - 1) :=
            Nat.mul_le_mul_left _ this
          omega
      _ < 256 ^ rest.length * 256 := by
          have hpos : 1 ≤ 256 ^ rest.length := Nat.one_le_pow _ _ (by norm_num)
          calc 255 + 256 * (256 ^ rest.length - 1)
              = 256 * 256 ^ rest.length - 1 := by omega
            _ < 256 ^ rest.length * 256 := by
                rw [Nat.mul_comm]
                omega

/-- Every block `dataSlices` produces is at most `numBytes` long and is made
of bytes of the input. -/
theorem dataSlices_block_spec (data : List Nat) (nb : Nat) (bl : List Nat)
    (h : bl ∈ dataSlices data nb) :
    bl.length ≤ nb ∧ ∀ x ∈ bl, x ∈ data := by
  unfold dataSlices at h
  simp only [List.mem_map, List.mem_range] at h
  obtain ⟨i, _, rfl⟩ := h
  constructor
  · rw [List.length_take]
    exact min_le_left _ _
  · intro x hx
    exact List.drop_subset _ _ (List.take_subset _ _ hx)

end ElGamal

/-- C6 as amended: whenever the stored bit length is at least 8, is not a
multiple of 8, and `2 ^ (bits - 1) ≤ modulo` (the normal outcome of the
bit-length recomputation), every block `encryptJSON` slices via
`dataSlices(data, byteLength - 1)` has little-endian value below the
modulus; for `bits` a multiple of 8 this fails (see the counterexample). -/
theorem claim6_blocks_below_modulus (bits modulo : Int) (data : List Nat)
    (hb : 8 ≤ bits) (hmod8 : bits.fmod 8 ≠ 0)
    (hmono : 2 ^ (bits.toNat - 1) ≤ modulo)
    (hdata : ∀ x ∈ data, x < 256) :
    ∀ bl ∈ ElGamal.dataSlices data (ElGamal.byteLenSafe bits - 1).toNat,
      (ElGamal.fromBytesLE bl : Int) < modulo := by
  intro bl hbl
  set B : Nat := bits.toNat with hBdef
  have hBb : bits = (B : Int) := (Int.toNat_of_nonneg (by omega)).symm
  have hB8 : 8 ≤ B := by omega
  have hfd : bits.fdiv 8 = ((B / 8 : Nat) : Int) := by
    rw [Int.fdiv_eq_ediv _ (by norm_num), hBb]
    omega
  have hfdne : bits.fdiv 8 ≠ 0 := by
    rw [hfd]
    have : 1 ≤ B / 8 := by omega
    exact_mod_cast by omega
  have hlen : (ElGamal.byteLenSafe bits - 1).toNat = B / 8 := by
    unfold ElGamal.byteLenSafe
    rw [if_neg hfdne, hfd]
    omega
  rw [hlen] at hbl
  obtain ⟨hblen, hbmem⟩ := ElGamal.dataSlices_block_spec data (B / 8) bl hbl
  have hmod8' : B % 8 ≠ 0 := by
    rw [hBb, Int.fmod_eq_emod _ (by norm_num)] at hmod8
    omega
  have hval : ElGamal.fromBytesLE bl < 2 ^ (B - 1) := by
    calc ElGamal.fromBytesLE bl
        < 256 ^ bl.length := ElGamal.fromBytesLE_lt bl
          fun x hx => hdata x (hbmem x hx)
      _ ≤ 256 ^ (B / 8) := Nat.pow_le_pow_right (by norm_num) hblen
      _ = 2 ^ (8 * (B / 8)) := by
          rw [show (256 : Nat) = 2 ^ 8 from by norm_num, ← pow_mul]
      _ ≤ 2 ^ (B - 1) := Nat.pow_le_pow_right (by norm_num) (by omega)
  calc (ElGamal.fromBytesLE bl : Int)
      < ((2 ^ (B - 1) : Nat) : Int) := by exact_mod_cast hval
    _ = 2 ^ (B - 1) := by push_cast; ring
    _ ≤ modulo := hmono

/-- C6 witness: the amended statement at a 9-bit modulus 263. -/
theorem claim6_witness :
    (8 ≤ (9 : Int) ∧ (9 : Int).fmod 8 ≠ 0 ∧
      2 ^ ((9 : Int).toNat - 1) ≤ (263 : Int) ∧
      ∀ x ∈ [255], x < 256) ∧
    ∀ bl ∈ ElGamal.dataSlices [255] (ElGamal.byteLenSafe 9 - 1).toNat,
      (ElGamal.fromBytesLE bl : Int) < 263 :=
  ⟨⟨by decide, by decide, by decide, by decide⟩,
    claim6_blocks_below_modulus 9 263 [255] (by decide) (by decide)
      (by decide) (by decide)⟩

namespace NumberTheory

/-- The `s`, `d` extraction loop terminates on positive input with the
2-adic decomposition `d0 = 2 ^ s * d`, `d` odd. -/
theorem splitOddLoop_spec :
    ∀ (fuel : Nat) (d s0 : Int), 1 ≤ d → d.natAbs < fuel →
      ∃ (k : Nat) (dodd : Int),
        splitOddLoop fuel d s0 = some (s0 + (k : Int), dodd) ∧
        d = 2 ^ k * dodd ∧ dodd.fmod 2 = 1 ∧ 1 ≤ dodd := by
  intro fuel
  induction fuel with
  | zero => intro d s0 h1 h2; omega
  | succ f ih =>
    intro d s0 h1 hfu
    by_cases hpar : d.fmod 2 = 0
    · rw [splitOddLoop, if_pos hpar]
      have hpar' : d % 2 = 0 := by
        rw [Int.fmod_eq_emod _ (by norm_num)] at hpar
        exact hpar
      have hd2 : d.fdiv 2 = d / 2 := Int.fdiv_eq_ediv _ (by norm_num)
      have h1' : 1 ≤ d / 2 := by omega
      have hfu' : (d / 2).natAbs < f := by omega
      obtain ⟨k, dodd, heq, hprod, hodd, hdd⟩ :=
        ih (d.fdiv 2) (s0 + 1) (by rw [hd2]; exact h1')
          (by rw [hd2]; exact hfu')
      refine ⟨k + 1, dodd, ?_, ?_, hodd, hdd⟩
      · rw [heq]
        congr 2
        push_cast
        ring
      · rw [hd2] at hprod
        have hsplit : d = 2 * (d / 2) := by omega
        rw [hsplit, hprod, pow_succ]
        ring
    · rw [splitOddLoop, if_neg hpar]
      refine ⟨0, d, by norm_num, by rw [pow_zero, one_mul], ?_, h1⟩
      rw [Int.fmod_eq_emod _ (by norm_num)] at hpar ⊢
      omega

/-- Once the Miller-Rabin squaring loop sees the power 0 it stays at 0 and
never records `n - 1`, so the flag it returns is unchanged. -/
theorem mrInnerLoop_zero (p : Int) (hp : 3 ≤ p) :
    ∀ t nd, mrInnerLoop p t 0 nd = nd := by
  intro t
  induction t with
  | zero => intro nd; rfl
  | succ t ih =>
    intro nd
    rw [mrInnerLoop]
    have h0 : ((0 : Int) * 0).fmod p = 0 := by
      rw [mul_zero, Int.fmod_eq_emod _ (by omega), Int.zero_emod]
    simp only [h0]
    rw [if_neg (by omega : ¬ (0 : Int) = p - 1)]
    exact ih nd

/-- If some base in the list is a multiple of `p ≥ 3`, the per-base loop of
`millerRabin` reports composite. -/
theorem mrBaseLoop_false (p d s : Int) (hp : 3 ≤ p) (hd : 1 ≤ d) :
    ∀ (bList : List Int) (b : Int), b ∈ bList → p ∣ b →
      mrBaseLoop p d s bList = some false := by
  intro bList
  induction bList with
  | nil => intro b hb; exact absurd hb (List.not_mem_nil b)
  | cons b0 rest ih =>
    intro b hb hdvd
    have hexp : modularExponentiation b0 d p = some ((b0 ^ d.toNat) % p) :=
      modularExponentiation_eq_pow' b0 d p (by omega) (by omega)
    rw [mrBaseLoop]
    simp only [hexp, Option.bind_eq_bind, Option.some_bind]
    rcases List.mem_cons.mp hb with hb0 | hbrest
    · subst hb0
      have hpow0 : (b ^ d.toNat) % p = 0 := by
        apply Int.emod_eq_zero_of_dvd
        exact dvd_pow hdvd (by omega : d.toNat ≠ 0)
      rw [hpow0]
      rw [if_neg (by omega : ¬ ((0 : Int) = 1 ∨ (0 : Int) = p - 1))]
      rw [mrInnerLoop_zero p hp]
      simp
    · have hres : mrBaseLoop p d s rest = some false := ih b hbrest hdvd
      split_ifs <;> simp [hres]

end NumberTheory

/-- C10: for every odd prime `p` and base list containing a multiple of
`p`, `millerRabin` returns `False`, reporting the prime as composite; the
trial-division path of `fastPrimalityTest` is the only guard against this. -/
theorem claim10_millerRabin_rejects_divisible_base (p b : Int)
    (bList : List Int) (hp3 : 3 ≤ p) (hodd : p.fmod 2 = 1)
    (hprime : Nat.Prime p.toNat) (hb : b ∈ bList) (hdvd : p ∣ b) :
    NumberTheory.millerRabin p bList = some false := by
  unfold NumberTheory.millerRabin
  have hfe : p.fmod 2 = p % 2 := Int.fmod_eq_emod _ (by norm_num)
  rw [if_neg (by omega : ¬ p = 2)]
  rw [if_neg (by
    push_neg
    constructor
    · omega
    · rw [hfe] at hodd ⊢
      omega)]
  obtain ⟨k, dodd, hsplit, hprod, hoddd, hdd⟩ :=
    NumberTheory.splitOddLoop_spec ((p - 1).natAbs + 1) (p - 1) 0
      (by omega) (by omega)
  rw [hsplit]
  simp only [Option.bind_eq_bind, Option.some_bind]
  exact NumberTheory.mrBaseLoop_false p dodd (0 + (k : Int)) hp3 hdd bList
    b hb hdvd

/-- C10 witness: `millerRabin(3, [3]) = False` although 3 is prime. -/
theorem claim10_witness :
    (3 ≤ (3 : Int) ∧ (3 : Int).fmod 2 = 1 ∧ Nat.Prime (3 : Int).toNat ∧
      (3 : Int) ∈ [(3 : Int)] ∧ (3 : Int) ∣ 3) ∧
    NumberTheory.millerRabin 3 [3] = some false :=
  ⟨⟨by decide, by decide, by decide, by decide, by decide⟩,
    claim10_millerRabin_rejects_divisible_base 3 3 [3] (by decide)
      (by decide) (by decide) (by decide) (by decide)⟩

namespace NumberTheory

/-- Product of the prime powers in a factorization list. -/
def prodPows (l : List (Int × Int)) : Nat :=
  (l.map fun qe => qe.1.toNat ^ qe.2.toNat).prod

/-- A list of (prime, exponent) pairs is the complete prime factorization
of `n`: positive prime entries with positive exponents, pairwise distinct
primes, and product of the prime powers equal to `n`. -/
def IsCompleteFactorization (l : List (Int × Int)) (n : Nat) : Prop :=
  (∀ qe ∈ l, Nat.Prime qe.1.toNat ∧ 0 ≤ qe.1 ∧ 1 ≤ qe.2) ∧
  (l.map fun qe => qe.1.toNat).Pairwise (· ≠ ·) ∧ prodPows l = n

theorem prodPows_nil : prodPows [] = 1 := rfl

theorem prodPows_cons (q e : Int) (rest : List (Int × Int)) :
    prodPows ((q, e) :: rest) = q.toNat ^ e.toNat * prodPows rest := by
  simp [prodPows]

/-- A natural coprime to every entry of a list is coprime to its product. -/
theorem coprime_listProd (k : Nat) (L : List Nat)
    (h : ∀ x ∈ L, Nat.Coprime k x) : Nat.Coprime k L.prod := by
  induction L with
  | nil => simp
  | cons x xs ih =>
    rw [List.prod_cons]
    exact (h x (List.mem_cons_self x xs)).mul_right
      (ih fun y hy => h y (List.mem_cons_of_mem x hy))

/-- Casting an integer reduced modulo `P` into `ZMod P` equals casting the
integer itself. -/
theorem intCast_emod_cast (P : Nat) (x : Int) :
    (((x % (P : Int)) : Int) : ZMod P) = (x : ZMod P) := by
  have h : x % (P : Int) = x - (P : Int) * (x / (P : Int)) := by
    rw [Int.emod_def]
  rw [h]
  push_cast
  rw [ZMod.natCast_self]
  ring

/-- An integer in `[0, P)` casts to 1 in `ZMod P` exactly when it is 1
(for `P ≥ 2`). -/
theorem intCast_eq_one_iff (P : Nat) (hP : 2 ≤ P) (x : Int) (hx0 : 0 ≤ x)
    (hxP : x < (P : Int)) : (x : ZMod P) = 1 ↔ x = 1 := by
  haveI : NeZero P := ⟨by omega⟩
  haveI : Fact (1 < P) := ⟨by omega⟩
  constructor
  · intro h
    have hxe : x = (x.toNat : Int) := (Int.toNat_of_nonneg hx0).symm
    rw [hxe, Int.cast_natCast] at h
    have hv : (x.toNat : ZMod P).val = x.toNat := ZMod.val_cast_of_lt (by omega)
    rw [h, ZMod.val_one] at hv
    omega
  · intro h
    rw [h, Int.cast_one]

/-- In the unit group of `ZMod P` (`P` prime), no exponent `k` with
`1 ≤ k < P - 1` can kill every unit. -/
theorem units_pow_eq_one_contra (P : Nat) [hPP : Fact P.Prime] (k : Nat)
    (hk1 : 1 ≤ k) (hklt : k < P - 1)
    (hall : ∀ u : (ZMod P)ˣ, u ^ k = 1) : False := by
  obtain ⟨z, hz⟩ := IsCyclic.exists_generator (α := (ZMod P)ˣ)
  have hord : orderOf z = P - 1 := by
    rw [orderOf_eq_card_of_forall_mem_zpowers hz, Nat.card_eq_fintype_card,
      ZMod.card_units_eq_totient, Nat.totient_prime hPP.out]
  have hdvd : orderOf z ∣ k := orderOf_dvd_of_pow_eq_one (hall z)
  rw [hord] at hdvd
  have := Nat.le_of_dvd (by omega) hdvd
  omega

/-- Gauss's subgroup-generator step: if `A ≠ 0`, `Q^E` divides `P - 1` and
`A ^ ((P-1)/Q) ≠ 1`, then `A ^ ((P-1)/Q^E)` has order exactly `Q^E`. -/
theorem orderOf_gauss_step (P : Nat) [hPP : Fact P.Prime] (A : ZMod P)
    (hA : A ≠ 0) (Q E : Nat) (hQ : Q.Prime) (hE : 1 ≤ E)
    (hdvd : Q ^ E ∣ P - 1) (hne1 : A ^ ((P - 1) / Q) ≠ 1) :
    orderOf (A ^ ((P - 1) / Q ^ E)) = Q ^ E := by
  have hQE0 : 0 < Q ^ E := pow_pos hQ.pos E
  have hexp : (P - 1) / Q ^ E * Q ^ (E - 1) = (P - 1) / Q := by
    obtain ⟨t, ht⟩ := hdvd
    rw [ht, Nat.mul_div_cancel_left t hQE0]
    have hsplit : Q ^ E = Q * Q ^ (E - 1) := by
      conv_lhs => rw [show E = (E - 1) + 1 from by omega]
      rw [pow_succ]
      ring
    rw [hsplit, mul_assoc, Nat.mul_div_cancel_left _ hQ.pos]
    ring
  have h1 : (A ^ ((P - 1) / Q ^ E)) ^ (Q ^ E) = 1 := by
    rw [← pow_mul, Nat.div_mul_cancel hdvd]
    exact ZMod.pow_card_sub_one_eq_one hA
  have hdvd2 : orderOf (A ^ ((P - 1) / Q ^ E)) ∣ Q ^ E :=
    orderOf_dvd_of_pow_eq_one h1
  obtain ⟨j, hj, hjeq⟩ := (Nat.dvd_prime_pow hQ).mp hdvd2
  rcases Nat.lt_or_ge j E with hjlt | hjge
  · exfalso
    have hdvd3 : orderOf (A ^ ((P - 1) / Q ^ E)) ∣ Q ^ (E - 1) := by
      rw [hjeq]
      exact pow_dvd_pow Q (by omega)
    have h2 : (A ^ ((P - 1) / Q ^ E)) ^ (Q ^ (E - 1)) = 1 :=
      orderOf_dvd_iff_pow_eq_one.mp hdvd3
    rw [← pow_mul, hexp] at h2
    exact hne1 h2
  · rw [hjeq]
    congr 1
    omega

end NumberTheory

namespace NumberTheory

/-- Transport `(x ^ k) mod p = 1` into `ZMod P`. -/
theorem intPow_emod_cast_eq_one (P : Nat) (p x : Int) (k : Nat)
    (hp : p = (P : Int)) (h : (x ^ k) % p = 1) :
    ((x : ZMod P)) ^ k = 1 := by
  have hc := congrArg (fun z : Int => (z : ZMod P)) h
  simp only [Int.cast_one] at hc
  rw [hp, intCast_emod_cast] at hc
  push_cast at hc
  exact hc

/-- Transport `(x : ZMod P) ^ k = 1` back to `(x ^ k) mod p = 1`. -/
theorem intPow_emod_eq_one_of_cast (P : Nat) (hP : 2 ≤ P) (p x : Int)
    (k : Nat) (hp : p = (P : Int)) (h : ((x : ZMod P)) ^ k = 1) :
    (x ^ k) % p = 1 := by
  have hpne : p ≠ 0 := by rw [hp]; exact_mod_cast (by omega : P ≠ 0)
  have hppos : 0 < p := by rw [hp]; exact_mod_cast (by omega : 0 < P)
  have hcast : (((x ^ k % p) : Int) : ZMod P) = 1 := by
    rw [hp, intCast_emod_cast]
    push_cast
    exact h
  have h0 : 0 ≤ x ^ k % p := Int.emod_nonneg _ hpne
  have hlt : x ^ k % p < p := Int.emod_lt_of_pos _ hppos
  exact (intCast_eq_one_iff P hP _ h0 (by rw [← hp]; exact hlt)).mp hcast

/-- Characterization of the `primitiveRoot` search loop: the returned `a`
fails the test, and every candidate from the start up to `a` passes it. -/
theorem prFindLoop_spec (n p : Int) :
    ∀ (fuel : Nat) (a a' : Int), prFindLoop n p fuel a = some a' →
      a ≤ a' ∧ modularExponentiation a' n p ≠ some 1 ∧
      ∀ x : Int, a ≤ x → x < a' → modularExponentiation x n p = some 1 := by
  intro fuel
  induction fuel with
  | zero =>
    intro a a' h
    rw [prFindLoop] at h
    cases hm : modularExponentiation a n p with
    | none => rw [hm] at h; simp at h
    | some t =>
      rw [hm] at h
      simp only [Option.bind_eq_bind, Option.some_bind] at h
      by_cases ht : t = 1
      · rw [if_pos ht] at h
        simp at h
      · rw [if_neg ht] at h
        obtain rfl := Option.some.inj h
        refine ⟨le_refl a, ?_, fun x h1 h2 => (by omega : False).elim⟩
        rw [hm]
        intro hc
        exact ht (Option.some.inj hc)
  | succ f ih =>
    intro a a' h
    rw [prFindLoop] at h
    cases hm : modularExponentiation a n p with
    | none => rw [hm] at h; simp at h
    | some t =>
      rw [hm] at h
      simp only [Option.bind_eq_bind, Option.some_bind] at h
      by_cases ht : t = 1
      · rw [if_pos ht] at h
        obtain ⟨hle, hne, hmin⟩ := ih (a + 1) a' h
        refine ⟨by omega, hne, ?_⟩
        intro x hx1 hx2
        rcases eq_or_lt_of_le hx1 with rfl | hlt
        · rw [hm, ht]
        · exact hmin x (by omega) hx2
      · rw [if_neg ht] at h
        obtain rfl := Option.some.inj h
        refine ⟨le_refl a, ?_, fun x h1 h2 => (by omega : False).elim⟩
        rw [hm]
        intro hc
        exact ht (Option.some.inj hc)

end NumberTheory

namespace NumberTheory

/-- Correctness of one factor step of `primitiveRoot` for prime `P`: the
element `h` computed from the factor `(Q, E)` has order exactly `Q ^ E` in
`ZMod P`. -/
theorem prFactor_spec (P : Nat) [hPP : Fact P.Prime] (p : Int)
    (hp : p = (P : Int)) (Q E : Nat) (hQ : Q.Prime) (hE : 1 ≤ E)
    (hdvd : Q ^ E ∣ P - 1) (a h : Int)
    (ha : prFindLoop ((p - 1).fdiv (Q : Int)) p (p.natAbs + 2) 2 = some a)
    (hh : modularExponentiation a ((p - 1).fdiv ((Q : Int) ^ E)) p = some h) :
    0 ≤ h ∧ orderOf ((h : ZMod P)) = Q ^ E := by
  haveI : NeZero P := ⟨by have := hPP.out.two_le; omega⟩
  have hP2 : 2 ≤ P := hPP.out.two_le
  have hp2 : (2 : Int) ≤ p := by rw [hp]; exact_mod_cast hP2
  have hppos : (0 : Int) < p := by omega
  have hpne : p ≠ 0 := by omega
  have hp1 : p - 1 = ((P - 1 : Nat) : Int) := by omega
  have hn1 : (p - 1).fdiv (Q : Int) = (((P - 1) / Q : Nat) : Int) := by
    rw [hp1, Int.fdiv_eq_ediv _ (by positivity), Int.natCast_div]
  have hnE : (p - 1).fdiv ((Q : Int) ^ E) = (((P - 1) / Q ^ E : Nat) : Int) := by
    rw [hp1, show ((Q : Int) ^ E) = ((Q ^ E : Nat) : Int) from by push_cast; ring,
      Int.fdiv_eq_ediv _ (by positivity), Int.natCast_div]
  set k : Nat := (P - 1) / Q with hkdef
  have hQd : Q ∣ P - 1 := dvd_trans (dvd_pow_self Q (by omega : E ≠ 0)) hdvd
  have hP1pos : 0 < P - 1 := by omega
  have hk1 : 1 ≤ k := (Nat.one_le_div_iff hQ.pos).mpr (Nat.le_of_dvd hP1pos hQd)
  have hklt : k < P - 1 := Nat.div_lt_self hP1pos hQ.one_lt
  obtain ⟨ha2, hane, hmin⟩ := prFindLoop_spec _ p _ 2 a ha
  rw [hn1] at hane hmin
  have haval : modularExponentiation a ((k : Nat) : Int) p =
      some ((a ^ k) % p) := modularExponentiation_eq_pow a k p hp2
  have hane' : (a ^ k) % p ≠ 1 := by
    intro hc
    exact hane (by rw [haval, hc])
  have hAne1 : ((a : ZMod P)) ^ k ≠ 1 := by
    intro hc
    exact hane' (intPow_emod_eq_one_of_cast P hP2 p a k hp hc)
  have hA0 : (a : ZMod P) ≠ 0 := by
    intro hA0
    have hPdvd : ((P : Nat) : Int) ∣ a :=
      (ZMod.intCast_zmod_eq_zero_iff_dvd a P).mp hA0
    have hpa : p ≤ a := by
      rw [hp]
      exact Int.le_of_dvd (by omega) hPdvd
    apply units_pow_eq_one_contra P k hk1 hklt
    intro u
    set v : Nat := ((u : ZMod P)).val with hvdef
    have hvlt : v < P := ZMod.val_lt _
    have hvcast : ((v : Nat) : ZMod P) = (u : ZMod P) := by
      rw [hvdef, ZMod.natCast_val, ZMod.cast_id]
    have hvne0 : v ≠ 0 := by
      intro h0
      apply Units.ne_zero u
      rw [← hvcast, h0, Nat.cast_zero]
    by_cases hv1 : v = 1
    · have hu1 : (u : ZMod P) = 1 := by rw [← hvcast, hv1, Nat.cast_one]
      rw [Units.val_eq_one.mp hu1, one_pow]
    · have hv2 : 2 ≤ v := by omega
      have hxlt : ((v : Nat) : Int) < a := by
        calc ((v : Nat) : Int) < ((P : Nat) : Int) := by exact_mod_cast hvlt
          _ = p := hp.symm
          _ ≤ a := hpa
      have hmm := hmin ((v : Nat) : Int) (by exact_mod_cast hv2) hxlt
      rw [modularExponentiation_eq_pow _ k p hp2] at hmm
      have h1 : (((v : Nat) : Int) ^ k) % p = 1 := Option.some.inj hmm
      have h2 : ((((v : Nat) : Int) : ZMod P)) ^ k = 1 :=
        intPow_emod_cast_eq_one P p _ k hp h1
      apply Units.ext
      rw [Units.val_pow_eq_pow_val, Units.val_one, ← hvcast]
      push_cast at h2 ⊢
      exact h2
  rw [hnE, modularExponentiation_eq_pow a ((P - 1) / Q ^ E) p hp2] at hh
  obtain rfl := Option.some.inj hh.symm
  refine ⟨Int.emod_nonneg _ hpne, ?_⟩
  have hcast : (((a ^ ((P - 1) / Q ^ E) % p : Int)) : ZMod P) =
      ((a : ZMod P)) ^ ((P - 1) / Q ^ E) := by
    rw [hp, intCast_emod_cast]
    push_cast
    ring
  rw [hcast]
  exact orderOf_gauss_step P (a : ZMod P) hA0 Q E hQ hE hdvd hAne1

end NumberTheory

namespace NumberTheory

/-- Invariant of the factor loop of `primitiveRoot`: starting from an
accumulator of order `m` coprime to the remaining prime powers, the loop
multiplies the order by every remaining prime power. -/
theorem prLoop_spec (P : Nat) [hPP : Fact P.Prime] (p : Int)
    (hp : p = (P : Int)) :
    ∀ (l : List (Int × Int)) (g gf : Int) (m : Nat),
      0 ≤ g →
      orderOf ((g : ZMod P)) = m →
      Nat.Coprime m (prodPows l) →
      (∀ qe ∈ l, Nat.Prime qe.1.toNat ∧ 0 ≤ qe.1 ∧ 1 ≤ qe.2 ∧
        qe.1.toNat ^ qe.2.toNat ∣ P - 1) →
      (l.map fun qe => qe.1.toNat).Pairwise (· ≠ ·) →
      prLoop p l g = some gf →
      0 ≤ gf ∧ orderOf ((gf : ZMod P)) = m * prodPows l := by
  intro l
  induction l with
  | nil =>
    intro g gf m hg0 hord hco hf hpw hres
    rw [prLoop] at hres
    obtain rfl := Option.some.inj hres
    rw [prodPows_nil, mul_one]
    exact ⟨hg0, hord⟩
  | cons qe rest ih =>
    obtain ⟨q, e⟩ := qe
    intro g gf m hg0 hord hco hf hpw hres
    rw [prLoop] at hres
    cases ha : prFindLoop ((p - 1).fdiv q) p (p.natAbs + 2) 2 with
    | none => rw [ha] at hres; simp at hres
    | some a =>
      rw [ha] at hres
      simp only [Option.bind_eq_bind, Option.some_bind] at hres
      cases hh : modularExponentiation a ((p - 1).fdiv (q ^ e.toNat)) p with
      | none => rw [hh] at hres; simp at hres
      | some h =>
        rw [hh] at hres
        simp only [Option.some_bind] at hres
        obtain ⟨hQP, hq0, he1, hdvd⟩ := hf (q, e) (List.mem_cons_self _ _)
        have hq : q = ((q.toNat : Nat) : Int) := (Int.toNat_of_nonneg hq0).symm
        have hE1 : 1 ≤ e.toNat := by omega
        obtain ⟨hh0, hordh⟩ := prFactor_spec P p hp q.toNat e.toNat hQP hE1
          hdvd a h (by rw [← hq]; exact ha) (by rw [← hq]; exact hh)
        have hP2 : 2 ≤ P := hPP.out.two_le
        have hppos : (0 : Int) < p := by
          rw [hp]
          exact_mod_cast (by omega : 0 < P)
        have hg'0 : 0 ≤ (g * h).fmod p := by
          rw [Int.fmod_eq_emod _ (le_of_lt hppos)]
          exact Int.emod_nonneg _ (ne_of_gt hppos)
        have hcast : ((((g * h).fmod p : Int)) : ZMod P) =
            (g : ZMod P) * (h : ZMod P) := by
          rw [Int.fmod_eq_emod _ (le_of_lt hppos), hp, intCast_emod_cast]
          push_cast
          ring
        rw [prodPows_cons] at hco
        have hcoQ : Nat.Coprime m (q.toNat ^ e.toNat) :=
          Nat.Coprime.coprime_dvd_right (dvd_mul_right _ _) hco
        have hordg' : orderOf ((((g * h).fmod p : Int)) : ZMod P) =
            m * q.toNat ^ e.toNat := by
          rw [hcast]
          have hcomm : Commute ((g : ZMod P)) ((h : ZMod P)) := Commute.all _ _
          rw [hcomm.orderOf_mul_eq_mul_orderOf_of_coprime
            (by rw [hord, hordh]; exact hcoQ), hord, hordh]
        have hcorest : Nat.Coprime m (prodPows rest) :=
          Nat.Coprime.coprime_dvd_right (dvd_mul_left _ _) hco
        rw [List.map_cons] at hpw
        obtain ⟨hhead, htail⟩ := List.pairwise_cons.mp hpw
        have hQErest : Nat.Coprime (q.toNat ^ e.toNat) (prodPows rest) := by
          apply coprime_listProd
          intro x hx
          obtain ⟨⟨q', e'⟩, hmem, rfl⟩ := List.mem_map.mp hx
          obtain ⟨hQ'P, _, _, _⟩ := hf (q', e') (List.mem_cons_of_mem _ hmem)
          have hne : q.toNat ≠ q'.toNat :=
            hhead q'.toNat (List.mem_map.mpr ⟨(q', e'), hmem, rfl⟩)
          exact Nat.Coprime.pow _ _ ((Nat.coprime_primes hQP hQ'P).mpr hne)
        have hconew : Nat.Coprime (m * q.toNat ^ e.toNat) (prodPows rest) :=
          (hcorest.symm.mul_right hQErest.symm).symm
        obtain ⟨hgf0, hordf⟩ := ih ((g * h).fmod p) gf
          (m * q.toNat ^ e.toNat) hg'0 hordg' hconew
          (fun qe hqe => hf qe (List.mem_cons_of_mem _ hqe)) htail hres
        refine ⟨hgf0, ?_⟩
        rw [hordf, prodPows_cons]
        ring

end NumberTheory

/-- C2: whenever `p` is prime and `factorization` is the complete prime
factorization of `p - 1`, a successful `primitiveRoot(factorization, p)`
returns a true primitive root: `g ^ (p-1) mod p = 1` and `g ^ d mod p ≠ 1`
for every proper divisor `d` of `p - 1`.  (Groups from
`generateSafeCyclicGroup` satisfy the hypotheses exactly when the probable
primes `p` and `q` that the search accepted are actually prime.) -/
theorem claim2_primitiveRoot_correct (p : Int) (l : List (Int × Int))
    (g : Int) (hp2 : 2 ≤ p) (hpr : Nat.Prime p.toNat)
    (hl : NumberTheory.IsCompleteFactorization l (p.toNat - 1))
    (hres : NumberTheory.primitiveRoot l p = some g) :
    0 ≤ g ∧ (g.toNat ^ (p.toNat - 1)) % p.toNat = 1 ∧
    ∀ d : Nat, d ∣ p.toNat - 1 → d ≠ p.toNat - 1 →
      (g.toNat ^ d) % p.toNat ≠ 1 := by
  haveI hF : Fact (Nat.Prime p.toNat) := ⟨hpr⟩
  haveI : NeZero p.toNat := ⟨by have := hpr.two_le; omega⟩
  have hP2 : 2 ≤ p.toNat := hpr.two_le
  have hp : p = ((p.toNat : Nat) : Int) := (Int.toNat_of_nonneg (by omega)).symm
  obtain ⟨hfa, hpw, hprodEq⟩ := hl
  have hfacts : ∀ qe ∈ l, Nat.Prime qe.1.toNat ∧ 0 ≤ qe.1 ∧ 1 ≤ qe.2 ∧
      qe.1.toNat ^ qe.2.toNat ∣ p.toNat - 1 := by
    intro qe hqe
    obtain ⟨h1, h2, h3⟩ := hfa qe hqe
    refine ⟨h1, h2, h3, ?_⟩
    rw [← hprodEq]
    exact List.dvd_prod (List.mem_map.mpr ⟨qe, hqe, rfl⟩)
  have hstart : orderOf (((1 : Int) : ZMod p.toNat)) = 1 := by
    rw [Int.cast_one, orderOf_one]
  obtain ⟨hg0, hord⟩ := NumberTheory.prLoop_spec p.toNat p hp l 1 g 1
    (by norm_num) hstart (Nat.coprime_one_left _) hfacts hpw hres
  rw [one_mul, hprodEq] at hord
  have hgn : g = ((g.toNat : Nat) : Int) := (Int.toNat_of_nonneg hg0).symm
  refine ⟨hg0, ?_, ?_⟩
  · have h1 : ((g : ZMod p.toNat)) ^ (p.toNat - 1) = 1 := by
      rw [← hord]
      exact pow_orderOf_eq_one _
    have h2 : (g ^ ((p.toNat - 1) : Nat)) % p = 1 :=
      NumberTheory.intPow_emod_eq_one_of_cast p.toNat hP2 p g _ hp h1
    rw [hgn, hp] at h2
    exact_mod_cast h2
  · intro d hdvd hdne hcontra
    have hc1 : ((g.toNat ^ d : Nat) : ZMod p.toNat) = 1 := by
      rw [← ZMod.natCast_mod, hcontra, Nat.cast_one]
    have hc2 : ((g : ZMod p.toNat)) ^ d = 1 := by
      rw [hgn]
      push_cast
      push_cast at hc1
      exact hc1
    have hdvd2 : p.toNat - 1 ∣ d := by
      rw [← hord]
      exact orderOf_dvd_of_pow_eq_one hc2
    exact hdne (Nat.dvd_antisymm hdvd hdvd2)

/-- C2 witness: `primitiveRoot([(2,1),(3,1)], 7) = 3`, a primitive root
modulo 7. -/
theorem claim2_witness :
    (2 ≤ (7 : Int) ∧ Nat.Prime (7 : Int).toNat ∧
      NumberTheory.IsCompleteFactorization [(2, 1), (3, 1)]
        ((7 : Int).toNat - 1) ∧
      NumberTheory.primitiveRoot [(2, 1), (3, 1)] 7 = some 3) ∧
    (0 ≤ (3 : Int) ∧
      ((3 : Int).toNat ^ ((7 : Int).toNat - 1)) % (7 : Int).toNat = 1 ∧
      ∀ d : Nat, d ∣ (7 : Int).toNat - 1 → d ≠ (7 : Int).toNat - 1 →
        ((3 : Int).toNat ^ d) % (7 : Int).toNat ≠ 1) :=
  ⟨⟨by decide, by decide, ⟨by decide, by decide, by decide⟩, by decide⟩,
    claim2_primitiveRoot_correct 7 [(2, 1), (3, 1)] 3 (by decide) (by decide)
      ⟨by decide, by decide, by decide⟩ (by decide)⟩
